import Mathlib

/-!
# Verification of the Trading-Day Price Reconciliation Engine (src/app.js)

Shallow embedding of the core of `src/app.js`: the reference-date resolver
(`getTargetDate`), the trading-day series construction and nearest-match
lookup (`findClosestPrice`), the change calculator (`calcChangeRate`), the
single-instrument resolver (`fetchClosingPrice`), the batch orchestrator
(`fetchAllPrices`), and the instrument extraction (`toTicker`,
`getUniqueStocks`).

Numbers are modelled as rationals (`ℚ`); JavaScript `Math.round` is
modelled by its ECMAScript semantics on exact values: the integer closest
to `x`, ties going towards `+∞`, i.e. `⌊x + 1/2⌋`.
-/

namespace App

/-- Evaluation helper: `Rat.floor` agrees with the mathematical floor. -/
theorem ratFloor_eq_intFloor (x : ℚ) : x.floor = ⌊x⌋ := by
  rw [Rat.floor_def', ← Rat.floor_def]

/-- Evaluation helper for `Rat.floor` at concrete rationals. -/
theorem ratFloor_eval (x : ℚ) (n : ℤ) (h1 : (n : ℚ) ≤ x) (h2 : x < n + 1) :
    x.floor = n := by
  rw [ratFloor_eq_intFloor, Int.floor_eq_iff.mpr ⟨h1, h2⟩]

/-- ECMAScript `Math.round`: the closest integer, ties towards `+∞`,
i.e. `⌊x + 1/2⌋`. -/
def jsRound (x : ℚ) : ℤ := (x + 1/2).floor

/-- `jsRound` agrees with the mathematical floor of `x + 1/2`. -/
theorem jsRound_eq_floor (x : ℚ) : jsRound x = ⌊x + 1/2⌋ :=
  ratFloor_eq_intFloor _

/-- Evaluation helper for `jsRound` at concrete rationals. -/
theorem jsRound_eval (x : ℚ) (n : ℤ) (h1 : (n : ℚ) ≤ x + 1/2) (h2 : x + 1/2 < n + 1) :
    jsRound x = n :=
  ratFloor_eval _ _ h1 h2

/-- Embedding of `calcChangeRate(currentPrice, pastPrice)` (src/app.js:211):
`if (currentPrice === null || pastPrice === null || pastPrice === 0) return null;
return Math.round((currentPrice - pastPrice) / pastPrice * 10000) / 100;`. -/
def calcChangeRate (currentPrice pastPrice : Option ℚ) : Option ℚ :=
  match currentPrice, pastPrice with
  | none, _ => none
  | _, none => none
  | some c, some p =>
    if p = 0 then none
    else some ((jsRound ((c - p) / p * 10000) : ℚ) / 100)

/-- Rounding half away from zero, as the spec's words prescribe. -/
def roundHalfAwayFromZero (x : ℚ) : ℤ :=
  if 0 ≤ x then ⌊x + 1/2⌋ else -⌊-x + 1/2⌋

/-- Modelled from the spec's words in §4.3 (for comparison with
`calcChangeRate`): null on null/zero inputs, otherwise
`(current − past) / past × 100` rounded to 2 decimals as
`round(x * 10000) / 100` with round-half-away-from-zero. -/
def specChangeRate (currentPrice pastPrice : Option ℚ) : Option ℚ :=
  match currentPrice, pastPrice with
  | none, _ => none
  | _, none => none
  | some c, some p =>
    if p = 0 then none
    else some ((roundHalfAwayFromZero ((c - p) / p * 10000) : ℚ) / 100)

/-- Modelled from the spec's words, amended: same as `specChangeRate` but
with round-half-up (ties towards `+∞`, the ECMAScript `Math.round` rule). -/
def specChangeRateHalfUp (currentPrice pastPrice : Option ℚ) : Option ℚ :=
  match currentPrice, pastPrice with
  | none, _ => none
  | _, none => none
  | some c, some p =>
    if p = 0 then none
    else some ((⌊(c - p) / p * 10000 + 1/2⌋ : ℚ) / 100)

/-- A valid observation index for the parallel raw arrays: within the
timestamp array and carrying a present close (`closes[i] !== null/undefined`). -/
def validIdx (timestamps : List ℤ) (closes : List (Option ℚ)) (i : ℕ) : Prop :=
  i < timestamps.length ∧ (closes.getD i none).isSome

instance (timestamps : List ℤ) (closes : List (Option ℚ)) (i : ℕ) :
    Decidable (validIdx timestamps closes i) :=
  inferInstanceAs (Decidable (_ ∧ _))

/-- One step of the first scan of `findClosestPrice` (src/app.js:184–191):
absent closes are skipped; otherwise `diff = targetTs - timestamps[i]` and the
index is taken when `diff >= 0 && diff < bestDiff`. The accumulator `none`
encodes `bestIdx = -1, bestDiff = Infinity`. -/
def step1 (timestamps : List ℤ) (closes : List (Option ℚ)) (targetTs : ℤ)
    (best : Option (ℕ × ℤ)) (i : ℕ) : Option (ℕ × ℤ) :=
  match closes.getD i none with
  | none => best
  | some _ =>
    let diff := targetTs - timestamps.getD i 0
    match best with
    | none => if 0 ≤ diff then some (i, diff) else none
    | some (j, d) => if 0 ≤ diff ∧ diff < d then some (i, diff) else some (j, d)

/-- One step of the second scan of `findClosestPrice` (src/app.js:194–202),
reached only when the first scan found nothing: absent closes are skipped;
`diff = |targetTs - timestamps[i]|`, taken when `diff < bestDiff`. -/
def step2 (timestamps : List ℤ) (closes : List (Option ℚ)) (targetTs : ℤ)
    (best : Option (ℕ × ℤ)) (i : ℕ) : Option (ℕ × ℤ) :=
  match closes.getD i none with
  | none => best
  | some _ =>
    let diff := |targetTs - timestamps.getD i 0|
    match best with
    | none => some (i, diff)
    | some (j, d) => if diff < d then some (i, diff) else some (j, d)

/-- Embedding of `findClosestPrice(timestamps, closes, targetTs)`
(src/app.js:179–206): first scan for the closest valid observation at or
before the target, then (only if none) for the closest overall; returns
`closes[bestIdx]`, or `null` when both scans fail. -/
def findClosestPrice (timestamps : List ℤ) (closes : List (Option ℚ))
    (targetTs : ℤ) : Option ℚ :=
  let r1 := (List.range timestamps.length).foldl (step1 timestamps closes targetTs) none
  let r := match r1 with
    | some b => some b
    | none => (List.range timestamps.length).foldl (step2 timestamps closes targetTs) none
  match r with
  | some (i, _) => closes.getD i none
  | none => none

/-- Invariant of the first scan after the indices `< n` have been processed. -/
def inv1 (timestamps : List ℤ) (closes : List (Option ℚ)) (targetTs : ℤ)
    (n : ℕ) : Option (ℕ × ℤ) → Prop
  | none => ∀ i, i < n →
      ¬ (validIdx timestamps closes i ∧ 0 ≤ targetTs - timestamps.getD i 0)
  | some (j, d) =>
      validIdx timestamps closes j ∧ j < n ∧
      d = targetTs - timestamps.getD j 0 ∧ 0 ≤ d ∧
      ∀ i, i < n → validIdx timestamps closes i →
        0 ≤ targetTs - timestamps.getD i 0 → d ≤ targetTs - timestamps.getD i 0

/-- Invariant of the second scan after the indices `< n` have been processed. -/
def inv2 (timestamps : List ℤ) (closes : List (Option ℚ)) (targetTs : ℤ)
    (n : ℕ) : Option (ℕ × ℤ) → Prop
  | none => ∀ i, i < n → ¬ validIdx timestamps closes i
  | some (j, d) =>
      validIdx timestamps closes j ∧ j < n ∧
      d = |targetTs - timestamps.getD j 0| ∧
      (∀ i, i < n → validIdx timestamps closes i →
        d ≤ |targetTs - timestamps.getD i 0|) ∧
      (∀ i, i < j → validIdx timestamps closes i →
        d < |targetTs - timestamps.getD i 0|)

/-- A trading-day observation: a timestamp with a present close. -/
structure PricePoint where
  ts : ℤ
  close : ℚ
  deriving DecidableEq, Inhabited

/-- The sort order of `tradingDays.sort((a, b) => a.ts - b.ts)`
(src/app.js:297): ascending timestamps. -/
def ppLE (a b : PricePoint) : Bool := a.ts ≤ b.ts

/-- Embedding of the trading-day series construction (src/app.js:290–297):
keep the indices with present closes, in order, then sort by timestamp
ascending (ECMAScript `Array.prototype.sort` is stable, as is `mergeSort`). -/
def buildTradingDays (timestamps : List ℤ) (closes : List (Option ℚ)) :
    List PricePoint :=
  ((List.range timestamps.length).filterMap fun i =>
      (closes.getD i none).map fun c => PricePoint.mk (timestamps.getD i 0) c).mergeSort
    ppLE

/-- Embedding of the anchor scan (src/app.js:304–312): scan from the last
index downwards for the first index with `ts <= targetTs`; when none is found
(`currentIdx === -1`), fall back to index `0`. -/
def anchorIdx (tradingDays : List PricePoint) (targetTs : ℤ) : ℕ :=
  ((List.range tradingDays.length).reverse.find? fun i =>
      (tradingDays.getD i default).ts ≤ targetTs).getD 0

/-- The transport/parse outcomes distinguished by `fetchClosingPrice`
(src/app.js:268–287): an exception thrown anywhere in the `try` body (caught
at src/app.js:346), a non-ok HTTP response, a missing or empty
`data.chart.result`, or a chart whose parallel arrays (defaulted to `[]` when
absent) are extracted. -/
inductive FetchResponse where
  | exn (message : String)
  | httpError (status : ℕ)
  | noChart
  | chart (timestamps : List ℤ) (closes : List (Option ℚ))

/-- The result record returned by `fetchClosingPrice` (src/app.js:244–253,
336–345). -/
structure PriceResult where
  price : Option ℚ
  actualDate : Option String
  change1d : Option ℚ
  change7d : Option ℚ
  change14d : Option ℚ
  change30d : Option ℚ
  change180d : Option ℚ
  error : Option String
  deriving DecidableEq

/-- `nullResult` (src/app.js:244–253). -/
def nullResult : PriceResult :=
  { price := none, actualDate := none, change1d := none, change7d := none,
    change14d := none, change30d := none, change180d := none, error := none }

/-- Proleptic Gregorian date `(year, month, day)` of a day index (days since
1970-01-01), matching the civil fields the JavaScript `Date` getters return. -/
def civilFromDays (z : ℤ) : ℤ × ℤ × ℤ :=
  let zs := z + 719468
  let era := zs / 146097
  let doe := zs - era * 146097
  let yoe := (doe - doe / 1460 + doe / 36524 - doe / 146096) / 365
  let y := yoe + era * 400
  let doy := doe - (365 * yoe + yoe / 4 - yoe / 100)
  let mp := (5 * doy + 2) / 153
  let d := doy - (153 * mp + 2) / 5 + 1
  let m := mp + (if mp < 10 then 3 else -9)
  (y + (if m ≤ 2 then 1 else 0), m, d)

/-- `String(n).padStart(2, '0')` for the (positive) month/day fields. -/
def pad2 (n : ℤ) : String :=
  if n < 10 then "0" ++ toString n else toString n

/-- `YYYY/MM/DD` rendering of a day index (src/app.js:318). -/
def fmtSlashDate (z : ℤ) : String :=
  let ymd := civilFromDays z
  toString ymd.1 ++ "/" ++ pad2 ymd.2.1 ++ "/" ++ pad2 ymd.2.2

/-- Date rendering of `new Date(actualTs * 1000)` as `YYYY/MM/DD`
(src/app.js:317–318) in a host time zone of constant offset `tzOffsetMin`
minutes (the `Date.prototype.getTimezoneOffset` convention, UTC − local). -/
def formatEpochDate (tzOffsetMin : ℤ) (epochSec : ℤ) : String :=
  fmtSlashDate ((epochSec - tzOffsetMin * 60) / 86400)

/-- `YYYYMMDD` rendering of a civil day index, as built at src/app.js:158–161
(`getFullYear` unpadded, month and day padded to two digits). -/
def fmtYYYYMMDD (z : ℤ) : String :=
  let ymd := civilFromDays z
  toString ymd.1 ++ pad2 ymd.2.1 ++ pad2 ymd.2.2

/-- The JST civil day index (days since 1970-01-01, in UTC+9) of an epoch
instant given in milliseconds. -/
def jstDay (nowMs : ℤ) : ℤ := (nowMs + 9 * 60 * 60 * 1000) / 86400000

/-- The JST minute-of-day (0–1439) of an epoch instant in milliseconds. -/
def jstMinuteOfDay (nowMs : ℤ) : ℤ :=
  (nowMs + 9 * 60 * 60 * 1000) % 86400000 / 60000

/-- Embedding of `getTargetDate()` (src/app.js:141–162). The current instant
is `nowMs` milliseconds since the Unix epoch; `tzOffsetMin` is the host's
`getTimezoneOffset()` (UTC − local, in minutes), assumed constant. The code
shifts the epoch value by `tzOffset + 9h` so that the host-local civil fields
of the shifted `Date` (instant − tzOffset) equal the JST civil fields of
`now`; `getHours`/`getMinutes`/`getFullYear`/`getMonth`/`getDate` are modelled
through the civil milliseconds `t − tzOffsetMin·60000` of an instant `t`. -/
def getTargetDate (tzOffsetMin : ℤ) (nowMs : ℤ) : String :=
  let utcMs := nowMs + tzOffsetMin * 60 * 1000
  let jstMs := utcMs + 9 * 60 * 60 * 1000
  let civilMs := jstMs - tzOffsetMin * 60 * 1000
  let msOfDay := civilMs % 86400000
  let hour := msOfDay / 3600000
  let minute := msOfDay % 3600000 / 60000
  let currentMinutes := hour * 60 + minute
  let targetMs := if 540 ≤ currentMinutes ∧ currentMinutes < 900 then
      jstMs - 24 * 60 * 60 * 1000
    else jstMs
  let targetCivilMs := targetMs - tzOffsetMin * 60 * 1000
  fmtYYYYMMDD (targetCivilMs / 86400000)

/-- Embedding of `fetchClosingPrice(ticker, targetDateStr)`
(src/app.js:243–349). `ticker = none` models `null`; `some ""` the empty
string (both falsy, short-circuiting as `無効なティッカー`). `targetTs`
stands for the Unix timestamp derived from `targetDateStr`
(src/app.js:258–259); `resp` abstracts the transport/parse outcome; and
`tzOffsetMin` is the host time-zone offset used only for date rendering. -/
def fetchClosingPrice (tzOffsetMin : ℤ) (ticker : Option String) (targetTs : ℤ)
    (resp : FetchResponse) : PriceResult :=
  if ticker = none ∨ ticker = some "" then
    { nullResult with error := some "無効なティッカー" }
  else
    match resp with
    | .exn msg => { nullResult with error := some msg }
    | .httpError status =>
        { nullResult with error := some ("HTTP " ++ toString status) }
    | .noChart => { nullResult with error := some "データなし" }
    | .chart timestamps closes =>
      if timestamps.length = 0 ∨ closes.length = 0 then
        { nullResult with error := some "チャートデータなし" }
      else
        let tradingDays := buildTradingDays timestamps closes
        if tradingDays.length = 0 then
          { nullResult with error := some "有効な終値なし" }
        else
          let currentIdx := anchorIdx tradingDays targetTs
          let currentPrice := (tradingDays.getD currentIdx default).close
          let actualTs := (tradingDays.getD currentIdx default).ts
          let price1d := if 1 ≤ currentIdx then
              some ((tradingDays.getD (currentIdx - 1) default).close)
            else none
          { price := some ((jsRound (currentPrice * 10) : ℚ) / 10),
            actualDate := some (formatEpochDate tzOffsetMin actualTs),
            change1d := calcChangeRate (some currentPrice) price1d,
            change7d := calcChangeRate (some currentPrice)
              (findClosestPrice timestamps closes (actualTs - 7 * 86400)),
            change14d := calcChangeRate (some currentPrice)
              (findClosestPrice timestamps closes (actualTs - 14 * 86400)),
            change30d := calcChangeRate (some currentPrice)
              (findClosestPrice timestamps closes (actualTs - 30 * 86400)),
            change180d := calcChangeRate (some currentPrice)
              (findClosestPrice timestamps closes (actualTs - 180 * 86400)),
            error := none }

/-- An instrument as produced by `getUniqueStocks` (src/app.js:116–133):
`{ ticker, rawCode, name }`, with `ticker = none` modelling `null`. -/
structure Stock where
  ticker : Option String
  rawCode : String
  name : String
  deriving DecidableEq

/-- An entry of the run's error list (src/app.js:381–386). -/
structure ErrEntry where
  code : String
  name : String
  ticker : String
  error : String
  deriving DecidableEq

/-- JavaScript truthiness of a nullable string (`if (result.error)`):
`null`/`undefined` and the empty string are falsy. -/
def optTruthy : Option String → Bool
  | none => false
  | some s => s ≠ ""

/-- JavaScript string interpolation of a nullable string: `null` renders as
`"null"`. -/
def jsStr : Option String → String
  | none => "null"
  | some s => s

/-- `stock.ticker || 'N/A'` (src/app.js:384). -/
def tickerOrNA : Option String → String
  | none => "N/A"
  | some s => if s = "" then "N/A" else s

/-- The error-list entry pushed for a failing stock (src/app.js:381–386). -/
def mkErrEntry (stock : Stock) (r : PriceResult) : ErrEntry :=
  { code := stock.rawCode, name := stock.name,
    ticker := tickerOrNA stock.ticker, error := r.error.getD "" }

/-- `formatDateStr` (src/app.js:167–170): `YYYYMMDD` → `YYYY/MM/DD`. -/
def formatDateStr (s : String) : String :=
  s.take 4 ++ "/" ++ (s.drop 4).take 2 ++ "/" ++ (s.drop 6).take 2

/-- The per-stock progress detail text (src/app.js:390). -/
def progressDetail (stock : Stock) : String :=
  stock.name ++ " (" ++ jsStr stock.ticker ++ ") を取得中..."

/-- The observable state of one reconciliation run: the `closingPrices` map
(as an insertion-ordered association list), the error list, the completed
counter, every `updateProgress` invocation in order, and the number of
inter-batch pauses (`sleep(BATCH_DELAY_MS)` calls). -/
structure RunState where
  closingPrices : List (String × PriceResult)
  errorMessages : List ErrEntry
  completed : ℕ
  progressCalls : List (ℕ × ℕ × String)
  pauses : ℕ
  deriving DecidableEq

/-- JavaScript object assignment `closingPrices[key] = v`: overwrite in place
when the key exists, append otherwise. -/
def setKey (m : List (String × PriceResult)) (k : String) (v : PriceResult) :
    List (String × PriceResult) :=
  if m.any (fun p => p.1 = k) then
    m.map fun p => if p.1 = k then (k, v) else p
  else m ++ [(k, v)]

/-- Settling one stock (the body of the per-stock async closure,
src/app.js:376–391): store the result, push an error entry when
`result.error` is truthy, then increment `completed` and report progress.
Within a batch, settlement order is modelled as submission order (the
interleaving of concurrently settling fetches is not otherwise observable in
this state). -/
def settleStock (resolver : Stock → PriceResult) (total : ℕ) (s : RunState)
    (stock : Stock) : RunState :=
  let result := resolver stock
  let s1 := { s with closingPrices := setKey s.closingPrices stock.rawCode result }
  let s2 := if optTruthy result.error then
      { s1 with errorMessages := s1.errorMessages ++ [mkErrEntry stock result] }
    else s1
  { s2 with
    completed := s2.completed + 1
    progressCalls := s2.progressCalls ++
      [(s2.completed + 1, total, progressDetail stock)] }

/-- The batch loop of `fetchAllPrices` (src/app.js:373–399):
`for (i = 0; i < total; i += BATCH_SIZE)` with `batch = stocks.slice(i, i+5)`,
a join-all settlement of the batch, and `sleep(BATCH_DELAY_MS)` when
`i + BATCH_SIZE < total`. `rem` is `stocks.slice(i)`. -/
def runBatches (resolver : Stock → PriceResult) (total : ℕ)
    (i : ℕ) (rem : List Stock) (s : RunState) : RunState :=
  match rem with
  | [] => s
  | a :: tail =>
    let s1 := ((a :: tail).take 5).foldl (settleStock resolver total) s
    let s2 := if i + 5 < total then { s1 with pauses := s1.pauses + 1 } else s1
    runBatches resolver total (i + 5) ((a :: tail).drop 5) s2
termination_by rem.length
decreasing_by simp; omega

/-- Embedding of `fetchAllPrices(stocks)` (src/app.js:355–409): reset state,
report progress `(0, total, 基準日...)`, run the batches, then report
`(total, total, 完了！)`. The single-instrument resolver is a parameter
standing for `fetchClosingPrice(stock.ticker, targetDateStr)`. -/
def fetchAllPrices (targetDateStr : String) (resolver : Stock → PriceResult)
    (stocks : List Stock) : RunState :=
  let total := stocks.length
  let st0 : RunState :=
    { closingPrices := [], errorMessages := [], completed := 0,
      progressCalls :=
        [(0, total, "基準日: " ++ formatDateStr targetDateStr ++ " — 準備中...")],
      pauses := 0 }
  let st1 := runBatches resolver total 0 stocks st0
  { st1 with progressCalls := st1.progressCalls ++ [(total, total, "完了！")] }

/-- The progress reports generated by settling a list of stocks in order,
starting from a completed count of `base` (one `(completed, total, detail)`
triple per stock). -/
def progressOfBatch (total : ℕ) (base : ℕ) : List Stock → List (ℕ × ℕ × String)
  | [] => []
  | a :: tail => (base + 1, total, progressDetail a) :: progressOfBatch total (base + 1) tail

/-- The number of inter-batch pauses the batch loop performs from start index
`i` over the remaining stocks: one per iteration with `i + 5 < total`. -/
def pausesFor (total : ℕ) (i : ℕ) (rem : List Stock) : ℕ :=
  match rem with
  | [] => 0
  | a :: tail =>
    (if i + 5 < total then 1 else 0) + pausesFor total (i + 5) ((a :: tail).drop 5)
termination_by rem.length
decreasing_by simp; omega

/-- `String(x).trim()`: strip leading and trailing whitespace (a structural
model of `String.trim`, which JavaScript's `trim()` matches on the
whitespace these inputs contain). -/
def jsTrim (s : String) : String :=
  String.mk
    (((s.toList.dropWhile Char.isWhitespace).reverse.dropWhile
      Char.isWhitespace).reverse)

/-- Embedding of `toTicker(rawCode)` (src/app.js:100–111): trim, require at
least 4 characters, take the first 4, require them all ASCII alphanumeric,
and append `".T"`. -/
def toTicker (rawCode : String) : Option String :=
  let code := jsTrim rawCode
  if code.length < 4 then none
  else
    let tickerChars := code.toList.take 4
    if tickerChars.all Char.isAlphanum then
      some (String.mk tickerChars ++ ".T")
    else none

/-- The raw code of a spreadsheet row, when the row reaches the code column
and the trimmed code is non-empty (src/app.js:120–122). Cells are modelled as
the strings `String(cell)` produces. -/
def rowCode (row : List String) : Option String :=
  if row.length ≤ 1 then none
  else
    let rawCode := jsTrim (row.getD 1 "")
    if rawCode = "" then none else some rawCode

/-- One iteration of the `getUniqueStocks` loop (src/app.js:119–130): skip
rows without a usable code, skip codes already seen, skip codes rejected by
`toTicker`, otherwise record `{ ticker, rawCode, name }`. -/
def addStockRow (acc : List Stock) (row : List String) : List Stock :=
  match rowCode row with
  | none => acc
  | some rawCode =>
    if acc.any (fun st => st.rawCode = rawCode) then acc
    else
      match toTicker rawCode with
      | none => acc
      | some ticker =>
        acc ++ [{ ticker := some ticker, rawCode := rawCode,
                  name := jsTrim (row.getD 2 "") }]

/-- Embedding of `getUniqueStocks(rows)` (src/app.js:116–133): first
occurrence of each code wins; rows whose code fails `toTicker` are skipped;
the display name comes from the kept row's name column. -/
def getUniqueStocks (rows : List (List String)) : List Stock :=
  rows.foldl addStockRow []

end App

/-- C2 (counterexample): the claim's rounding rule is round-half-away-from-zero,
but the code uses JavaScript `Math.round`, which sends ties towards `+∞`.
At `current = 31`, `past = 32` (an input at which the double-precision
computation in the source is exact: `(31-32)/32*10000 = -312.5`), the code
returns `-3.12` while the claimed round-half-away-from-zero rule returns
`-3.13`. -/
theorem calcChangeRate_ne_specChangeRate :
    App.calcChangeRate (some 31) (some 32) = some (-312/100) ∧
    App.specChangeRate (some 31) (some 32) = some (-313/100) ∧
    App.calcChangeRate (some 31) (some 32) ≠
      App.specChangeRate (some 31) (some 32) := by
  have hx : ((31 : ℚ) - 32) / 32 * 10000 = -312.5 := by norm_num
  have h1 : App.jsRound (((31 : ℚ) - 32) / 32 * 10000) = -312 := by
    refine App.jsRound_eval _ _ ?_ ?_ <;> rw [hx] <;> norm_num
  have h2 : App.roundHalfAwayFromZero (((31 : ℚ) - 32) / 32 * 10000) = -313 := by
    rw [App.roundHalfAwayFromZero, if_neg (by rw [hx]; norm_num)]
    rw [show ⌊-(((31 : ℚ) - 32) / 32 * 10000) + 1/2⌋ = 313 from
      Int.floor_eq_iff.mpr (by rw [hx]; norm_num)]
  refine ⟨?_, ?_, ?_⟩
  · rw [App.calcChangeRate, if_neg (by norm_num), h1]; norm_num
  · rw [App.specChangeRate, if_neg (by norm_num), h2]; norm_num
  · rw [App.calcChangeRate, if_neg (by norm_num), h1,
      App.specChangeRate, if_neg (by norm_num), h2]
    simp only [ne_eq, Option.some.injEq]
    norm_num

/-- C2 (amended): `changeRate(current, past)` returns `null` iff either input
is `null` or `past = 0`; otherwise it returns `(current − past)/past × 100`
rounded to 2 decimals by `round(x·10000)/100`, where `round` is round-half-up
(ties towards `+∞`, the ECMAScript `Math.round` rule); in particular
`changeRate(110,100) = 10`, `changeRate(95,100) = −5`, `changeRate(x,0) = null`
and `changeRate(null,y) = null`. -/
theorem calcChangeRate_spec :
    (∀ c p, App.calcChangeRate c p = App.specChangeRateHalfUp c p) ∧
    (∀ x, App.calcChangeRate x (some 0) = none) ∧
    (∀ x, App.calcChangeRate x none = none) ∧
    (∀ y, App.calcChangeRate none y = none) ∧
    App.calcChangeRate (some 110) (some 100) = some 10 ∧
    App.calcChangeRate (some 95) (some 100) = some (-5) := by
  refine ⟨?_, ?_, ?_, ?_, ?_, ?_⟩
  · intro c p
    cases c <;> cases p <;>
      simp [App.calcChangeRate, App.specChangeRateHalfUp, App.jsRound_eq_floor]
  · intro x
    cases x <;> simp [App.calcChangeRate]
  · intro x
    cases x <;> simp [App.calcChangeRate]
  · intro y
    simp [App.calcChangeRate]
  · rw [App.calcChangeRate, if_neg (by norm_num),
      App.jsRound_eval _ 1000 (by norm_num) (by norm_num)]
    norm_num
  · rw [App.calcChangeRate, if_neg (by norm_num),
      App.jsRound_eval _ (-500) (by norm_num) (by norm_num)]
    norm_num

/-- The first scan of `findClosestPrice` maintains `inv1`. -/
theorem inv1_foldl (ts : List ℤ) (cs : List (Option ℚ)) (t : ℤ) :
    ∀ n, n ≤ ts.length →
      App.inv1 ts cs t n ((List.range n).foldl (App.step1 ts cs t) none)
  | 0, _ => by
    simp only [List.range_zero, List.foldl_nil, App.inv1]
    omega
  | n + 1, hn => by
    have ih := inv1_foldl ts cs t n (by omega)
    rw [List.range_succ, List.foldl_append, List.foldl_cons, List.foldl_nil]
    revert ih
    generalize (List.range n).foldl (App.step1 ts cs t) none = b
    intro ih
    cases hcn : cs.getD n none with
    | none =>
      have hstep : App.step1 ts cs t b n = b := by
        simp only [App.step1, hcn]
      rw [hstep]
      cases b with
      | none =>
        simp only [App.inv1] at ih ⊢
        intro i hi hbad
        rcases Nat.lt_succ_iff_lt_or_eq.mp hi with h | h
        · exact ih i h hbad
        · subst h
          have := hbad.1.2
          rw [hcn] at this
          simp at this
      | some jd =>
        obtain ⟨j, d⟩ := jd
        simp only [App.inv1] at ih ⊢
        obtain ⟨hv, hjn, hd, hd0, hmin⟩ := ih
        refine ⟨hv, by omega, hd, hd0, ?_⟩
        intro i hi hvi hdi
        rcases Nat.lt_succ_iff_lt_or_eq.mp hi with h | h
        · exact hmin i h hvi hdi
        · subst h
          exfalso
          have := hvi.2
          rw [hcn] at this
          simp at this
    | some c =>
      have hvn : App.validIdx ts cs n := ⟨by omega, by rw [hcn]; rfl⟩
      cases b with
      | none =>
        have hstep : App.step1 ts cs t none n =
            if 0 ≤ t - ts.getD n 0 then some (n, t - ts.getD n 0) else none := by
          simp only [App.step1, hcn]
        rw [hstep]
        simp only [App.inv1] at ih
        split
        · next h =>
          simp only [App.inv1]
          refine ⟨hvn, by omega, trivial, h, ?_⟩
          intro i hi hvi hdi
          rcases Nat.lt_succ_iff_lt_or_eq.mp hi with h' | h'
          · exact absurd ⟨hvi, hdi⟩ (ih i h')
          · subst h'; omega
        · next h =>
          simp only [App.inv1]
          intro i hi hbad
          rcases Nat.lt_succ_iff_lt_or_eq.mp hi with h' | h'
          · exact ih i h' hbad
          · subst h'; exact h hbad.2
      | some jd =>
        obtain ⟨j, d⟩ := jd
        have hstep : App.step1 ts cs t (some (j, d)) n =
            if 0 ≤ t - ts.getD n 0 ∧ t - ts.getD n 0 < d then
              some (n, t - ts.getD n 0) else some (j, d) := by
          simp only [App.step1, hcn]
        rw [hstep]
        simp only [App.inv1] at ih
        obtain ⟨hv, hjn, hd, hd0, hmin⟩ := ih
        split
        · next h =>
          simp only [App.inv1]
          refine ⟨hvn, by omega, trivial, h.1, ?_⟩
          intro i hi hvi hdi
          rcases Nat.lt_succ_iff_lt_or_eq.mp hi with h' | h'
          · have := hmin i h' hvi hdi; omega
          · subst h'; omega
        · next h =>
          simp only [App.inv1]
          refine ⟨hv, by omega, hd, hd0, ?_⟩
          intro i hi hvi hdi
          rcases Nat.lt_succ_iff_lt_or_eq.mp hi with h' | h'
          · exact hmin i h' hvi hdi
          · subst h'; omega

/-- The second scan of `findClosestPrice` maintains `inv2`. -/
theorem inv2_foldl (ts : List ℤ) (cs : List (Option ℚ)) (t : ℤ) :
    ∀ n, n ≤ ts.length →
      App.inv2 ts cs t n ((List.range n).foldl (App.step2 ts cs t) none)
  | 0, _ => by
    simp only [List.range_zero, List.foldl_nil, App.inv2]
    omega
  | n + 1, hn => by
    have ih := inv2_foldl ts cs t n (by omega)
    rw [List.range_succ, List.foldl_append, List.foldl_cons, List.foldl_nil]
    revert ih
    generalize (List.range n).foldl (App.step2 ts cs t) none = b
    intro ih
    cases hcn : cs.getD n none with
    | none =>
      have hstep : App.step2 ts cs t b n = b := by
        simp only [App.step2, hcn]
      rw [hstep]
      cases b with
      | none =>
        simp only [App.inv2] at ih ⊢
        intro i hi hbad
        rcases Nat.lt_succ_iff_lt_or_eq.mp hi with h | h
        · exact ih i h hbad
        · subst h
          have := hbad.2
          rw [hcn] at this
          simp at this
      | some jd =>
        obtain ⟨j, d⟩ := jd
        simp only [App.inv2] at ih ⊢
        obtain ⟨hv, hjn, hd, hmin, hstrict⟩ := ih
        refine ⟨hv, by omega, hd, ?_, hstrict⟩
        intro i hi hvi
        rcases Nat.lt_succ_iff_lt_or_eq.mp hi with h | h
        · exact hmin i h hvi
        · subst h
          exfalso
          have := hvi.2
          rw [hcn] at this
          simp at this
    | some c =>
      have hvn : App.validIdx ts cs n := ⟨by omega, by rw [hcn]; rfl⟩
      cases b with
      | none =>
        have hstep : App.step2 ts cs t none n =
            some (n, |t - ts.getD n 0|) := by
          simp only [App.step2, hcn]
        rw [hstep]
        simp only [App.inv2] at ih ⊢
        refine ⟨hvn, by omega, trivial, ?_, ?_⟩
        · intro i hi hvi
          rcases Nat.lt_succ_iff_lt_or_eq.mp hi with h' | h'
          · exact absurd hvi (ih i h')
          · subst h'; omega
        · intro i hi hvi
          exact absurd hvi (ih i (by omega))
      | some jd =>
        obtain ⟨j, d⟩ := jd
        have hstep : App.step2 ts cs t (some (j, d)) n =
            if |t - ts.getD n 0| < d then
              some (n, |t - ts.getD n 0|) else some (j, d) := by
          simp only [App.step2, hcn]
        rw [hstep]
        simp only [App.inv2] at ih
        obtain ⟨hv, hjn, hd, hmin, hstrict⟩ := ih
        split
        · next h =>
          simp only [App.inv2]
          refine ⟨hvn, by omega, trivial, ?_, ?_⟩
          · intro i hi hvi
            rcases Nat.lt_succ_iff_lt_or_eq.mp hi with h' | h'
            · have := hmin i h' hvi; omega
            · subst h'; omega
          · intro i hi hvi
            have := hmin i (by omega) hvi
            omega
        · next h =>
          simp only [App.inv2]
          refine ⟨hv, by omega, hd, ?_, hstrict⟩
          intro i hi hvi
          rcases Nat.lt_succ_iff_lt_or_eq.mp hi with h' | h'
          · exact hmin i h' hvi
          · subst h'; omega

/-- C3: `findClosestPrice` returns the close of the valid observation with the
smallest `target − timestamp` among those with timestamp ≤ target; when no
valid observation is at or before the target, the close of the valid
observation nearest by absolute distance, ties resolved in favor of the lower
original-array index; and it returns `null` exactly when there is no valid
observation. -/
theorem findClosestPrice_spec (ts : List ℤ) (cs : List (Option ℚ)) (t : ℤ) :
    (App.findClosestPrice ts cs t = none ↔ ∀ i, ¬ App.validIdx ts cs i) ∧
    ((∃ i, App.validIdx ts cs i ∧ ts.getD i 0 ≤ t) →
      ∃ j, App.validIdx ts cs j ∧ ts.getD j 0 ≤ t ∧
        App.findClosestPrice ts cs t = cs.getD j none ∧
        ∀ i, App.validIdx ts cs i → ts.getD i 0 ≤ t →
          t - ts.getD j 0 ≤ t - ts.getD i 0) ∧
    ((∀ i, App.validIdx ts cs i → t < ts.getD i 0) →
      (∃ i, App.validIdx ts cs i) →
      ∃ j, App.validIdx ts cs j ∧
        App.findClosestPrice ts cs t = cs.getD j none ∧
        (∀ i, App.validIdx ts cs i → |t - ts.getD j 0| ≤ |t - ts.getD i 0|) ∧
        (∀ i, App.validIdx ts cs i →
          |t - ts.getD i 0| = |t - ts.getD j 0| → j ≤ i)) := by
  have h1 := inv1_foldl ts cs t ts.length le_rfl
  have h2 := inv2_foldl ts cs t ts.length le_rfl
  revert h1 h2
  generalize hr1 : (List.range ts.length).foldl (App.step1 ts cs t) none = r1
  generalize hr2 : (List.range ts.length).foldl (App.step2 ts cs t) none = r2
  intro h1 h2
  cases r1 with
  | some jd =>
    obtain ⟨j, d⟩ := jd
    simp only [App.inv1] at h1
    obtain ⟨hv, hjn, hd, hd0, hmin⟩ := h1
    have hfcp : App.findClosestPrice ts cs t = cs.getD j none := by
      simp only [App.findClosestPrice, hr1]
    obtain ⟨c, hc⟩ := Option.isSome_iff_exists.mp hv.2
    refine ⟨?_, ?_, ?_⟩
    · rw [hfcp, hc]
      constructor
      · intro h; simp at h
      · intro h; exact absurd hv (h j)
    · intro _
      exact ⟨j, hv, by omega, hfcp, fun i hvi hti => by
        have := hmin i hvi.1 hvi (by omega); omega⟩
    · intro hafter _
      exact absurd (hafter j hv) (by omega)
  | none =>
    simp only [App.inv1] at h1
    cases r2 with
    | none =>
      simp only [App.inv2] at h2
      have hfcp : App.findClosestPrice ts cs t = none := by
        simp only [App.findClosestPrice, hr1, hr2]
      refine ⟨?_, ?_, ?_⟩
      · rw [hfcp]
        exact ⟨fun _ i hvi => h2 i hvi.1 hvi, fun _ => rfl⟩
      · rintro ⟨i, hvi, _⟩
        exact absurd hvi (h2 i hvi.1)
      · rintro _ ⟨i, hvi⟩
        exact absurd hvi (h2 i hvi.1)
    | some jd =>
      obtain ⟨j, d⟩ := jd
      simp only [App.inv2] at h2
      obtain ⟨hv, hjn, hd, hmin, hstrict⟩ := h2
      have hfcp : App.findClosestPrice ts cs t = cs.getD j none := by
        simp only [App.findClosestPrice, hr1, hr2]
      obtain ⟨c, hc⟩ := Option.isSome_iff_exists.mp hv.2
      refine ⟨?_, ?_, ?_⟩
      · rw [hfcp, hc]
        constructor
        · intro h; simp at h
        · intro h; exact absurd hv (h j)
      · rintro ⟨i, hvi, hti⟩
        exact absurd ⟨hvi, by omega⟩ (h1 i hvi.1)
      · intro _ _
        refine ⟨j, hv, hfcp, ?_, ?_⟩
        · intro i hvi
          have := hmin i hvi.1 hvi
          omega
        · intro i hvi heq
          by_contra hij
          have := hstrict i (by omega) hvi
          omega

/-- Witness for C3 at the spec's example series `[(100,10),(200,20),(300,30)]`:
target `250` exercises the at-or-before branch, target `50` the fallback. -/
theorem findClosestPrice_spec_witness :
    (∃ j, App.validIdx ([100,200,300] : List ℤ)
        ([some 10, some 20, some 30] : List (Option ℚ)) j ∧
      ([100,200,300] : List ℤ).getD j 0 ≤ 250 ∧
      App.findClosestPrice ([100,200,300] : List ℤ)
          ([some 10, some 20, some 30] : List (Option ℚ)) 250 =
        ([some 10, some 20, some 30] : List (Option ℚ)).getD j none ∧
      ∀ i, App.validIdx ([100,200,300] : List ℤ)
          ([some 10, some 20, some 30] : List (Option ℚ)) i →
        ([100,200,300] : List ℤ).getD i 0 ≤ 250 →
        250 - ([100,200,300] : List ℤ).getD j 0 ≤
          250 - ([100,200,300] : List ℤ).getD i 0) ∧
    (∃ j, App.validIdx ([100,200,300] : List ℤ)
        ([some 10, some 20, some 30] : List (Option ℚ)) j ∧
      App.findClosestPrice ([100,200,300] : List ℤ)
          ([some 10, some 20, some 30] : List (Option ℚ)) 50 =
        ([some 10, some 20, some 30] : List (Option ℚ)).getD j none ∧
      (∀ i, App.validIdx ([100,200,300] : List ℤ)
          ([some 10, some 20, some 30] : List (Option ℚ)) i →
        |(50:ℤ) - ([100,200,300] : List ℤ).getD j 0| ≤
          |(50:ℤ) - ([100,200,300] : List ℤ).getD i 0|) ∧
      (∀ i, App.validIdx ([100,200,300] : List ℤ)
          ([some 10, some 20, some 30] : List (Option ℚ)) i →
        |(50:ℤ) - ([100,200,300] : List ℤ).getD i 0| =
          |(50:ℤ) - ([100,200,300] : List ℤ).getD j 0| → j ≤ i)) :=
  ⟨(findClosestPrice_spec [100,200,300] [some 10, some 20, some 30] 250).2.1
      ⟨1, by decide, by decide⟩,
   (findClosestPrice_spec [100,200,300] [some 10, some 20, some 30] 50).2.2
      (by
        intro i hvi
        have h3 : i < 3 := hvi.1
        interval_cases i <;> decide)
      ⟨0, by decide⟩⟩

/-- C6: the Single-Instrument Resolver always returns a well-formed
`PriceResult`: for every input — invalid ticker, transport failure, malformed
payload (`exn` covers any exception raised inside the `try`), missing chart,
empty or all-absent series, and the success path — `price = null` iff
`error ≠ null`, and whenever `error` is set, all six numeric fields are
`null`. -/
theorem fetchClosingPrice_wellFormed (tzOffsetMin : ℤ) (ticker : Option String)
    (targetTs : ℤ) (resp : App.FetchResponse) :
    ((App.fetchClosingPrice tzOffsetMin ticker targetTs resp).price = none ↔
      (App.fetchClosingPrice tzOffsetMin ticker targetTs resp).error ≠ none) ∧
    ((App.fetchClosingPrice tzOffsetMin ticker targetTs resp).error ≠ none →
      (App.fetchClosingPrice tzOffsetMin ticker targetTs resp).price = none ∧
      (App.fetchClosingPrice tzOffsetMin ticker targetTs resp).change1d = none ∧
      (App.fetchClosingPrice tzOffsetMin ticker targetTs resp).change7d = none ∧
      (App.fetchClosingPrice tzOffsetMin ticker targetTs resp).change14d = none ∧
      (App.fetchClosingPrice tzOffsetMin ticker targetTs resp).change30d = none ∧
      (App.fetchClosingPrice tzOffsetMin ticker targetTs resp).change180d = none) := by
  by_cases ht : ticker = none ∨ ticker = some ""
  · simp [App.fetchClosingPrice, ht, App.nullResult]
  · cases resp with
    | exn m => simp [App.fetchClosingPrice, ht, App.nullResult]
    | httpError s => simp [App.fetchClosingPrice, ht, App.nullResult]
    | noChart => simp [App.fetchClosingPrice, ht, App.nullResult]
    | chart timestamps closes =>
      by_cases h1 : timestamps = [] ∨ closes = []
      · simp [App.fetchClosingPrice, ht, h1, App.nullResult]
      · by_cases h2 : App.buildTradingDays timestamps closes = []
        · simp [App.fetchClosingPrice, ht, h1, h2, App.nullResult]
        · simp [App.fetchClosingPrice, ht, h1, h2]

/-- `ppLE` is transitive. -/
theorem ppLE_trans (a b c : App.PricePoint) :
    App.ppLE a b → App.ppLE b c → App.ppLE a c := by
  simp only [App.ppLE, decide_eq_true_eq]
  omega

/-- `ppLE` is total. -/
theorem ppLE_total (a b : App.PricePoint) : App.ppLE a b || App.ppLE b a := by
  simp only [App.ppLE, Bool.or_eq_true, decide_eq_true_eq]
  omega

/-- C7 (counterexample): the claim says duplicate timestamps are dropped with
the first occurrence winning, but the code (src/app.js:290–297) only filters
absent closes and sorts — it never deduplicates. With raw arrays
`timestamps = [100, 100]`, `closes = [10, 20]`, the built series keeps both
observations with timestamp `100`. -/
theorem buildTradingDays_dup_counterexample :
    App.buildTradingDays [100, 100] [some 10, some 20] =
      [{ ts := 100, close := 10 }, { ts := 100, close := 20 }] ∧
    ¬ ((App.buildTradingDays [100, 100]
        [some 10, some 20]).map App.PricePoint.ts).Nodup := by
  have hbd : App.buildTradingDays [100, 100] [some 10, some 20] =
      [{ ts := 100, close := 10 }, { ts := 100, close := 20 }] := by
    rw [App.buildTradingDays]
    rw [show (List.range ([100, 100] : List ℤ).length).filterMap
        (fun i => (([some 10, some 20] : List (Option ℚ)).getD i none).map
          fun c => App.PricePoint.mk (([100, 100] : List ℤ).getD i 0) c) =
        [{ ts := 100, close := 10 }, { ts := 100, close := 20 }] from by decide]
    exact List.mergeSort_of_sorted (by decide)
  refine ⟨hbd, ?_⟩
  rw [hbd]
  decide

/-- C7 (amended): the Trading-Day Series contains exactly the observations
with present closes (duplicated timestamps are all retained, not
deduplicated), i.e. it is a permutation of the in-order list of valid
observations, it is ordered by non-decreasing timestamp, and every element
comes from a valid index of the raw arrays. -/
theorem buildTradingDays_spec (timestamps : List ℤ) (closes : List (Option ℚ)) :
    (App.buildTradingDays timestamps closes).Pairwise (fun a b => a.ts ≤ b.ts) ∧
    (App.buildTradingDays timestamps closes).Perm
      ((List.range timestamps.length).filterMap fun i =>
        (closes.getD i none).map fun c => App.PricePoint.mk (timestamps.getD i 0) c) ∧
    ∀ p ∈ App.buildTradingDays timestamps closes,
      ∃ i, App.validIdx timestamps closes i ∧
        timestamps.getD i 0 = p.ts ∧ closes.getD i none = some p.close := by
  refine ⟨?_, ?_, ?_⟩
  · rw [App.buildTradingDays]
    exact (List.sorted_mergeSort ppLE_trans ppLE_total _).imp
      (fun h => by simpa [App.ppLE] using h)
  · rw [App.buildTradingDays]
    exact List.mergeSort_perm _ _
  · intro p hp
    rw [App.buildTradingDays, List.mem_mergeSort] at hp
    obtain ⟨i, hi, hf⟩ := List.mem_filterMap.mp hp
    rw [List.mem_range] at hi
    cases hcl : closes.getD i none with
    | none => rw [hcl] at hf; simp at hf
    | some c =>
      rw [hcl] at hf
      obtain rfl : App.PricePoint.mk (timestamps.getD i 0) c = p := by
        simpa using hf
      exact ⟨i, ⟨hi, by rw [hcl]; rfl⟩, rfl, by rw [hcl]⟩

/-- Witness for C7 at the duplicate-timestamp input: the element
`(100, 10)` of the built series comes from a valid raw index. -/
theorem buildTradingDays_spec_witness :
    ∃ i, App.validIdx [100, 100] [some 10, some 20] i ∧
      ([100, 100] : List ℤ).getD i 0 =
        ({ ts := 100, close := 10 } : App.PricePoint).ts ∧
      ([some 10, some 20] : List (Option ℚ)).getD i none =
        some ({ ts := 100, close := 10 } : App.PricePoint).close :=
  (buildTradingDays_spec [100, 100] [some 10, some 20]).2.2
    { ts := 100, close := 10 }
    (by rw [App.buildTradingDays, List.mem_mergeSort]; decide)

/-- `find?` over a reversed index range returns the greatest index satisfying
the predicate, or `none` when no index does. -/
theorem find_revRange (n : ℕ) (p : ℕ → Bool) :
    (∀ j, (List.range n).reverse.find? p = some j →
      j < n ∧ p j ∧ ∀ i, i < n → p i → i ≤ j) ∧
    ((List.range n).reverse.find? p = none → ∀ i, i < n → ¬ p i) := by
  induction n with
  | zero =>
    constructor
    · intro j h; simp at h
    · intro _ i hi; omega
  | succ n ih =>
    have hrev : (List.range (n + 1)).reverse = n :: (List.range n).reverse := by
      rw [List.range_succ, List.reverse_append]; rfl
    rw [hrev]
    cases hpn : p n with
    | true =>
      constructor
      · intro j h
        rw [List.find?_cons_of_pos _ hpn] at h
        obtain rfl : n = j := by simpa using h
        exact ⟨Nat.lt_succ_self n, hpn, fun i hi _ => by omega⟩
      · intro h
        rw [List.find?_cons_of_pos _ hpn] at h
        simp at h
    | false =>
      constructor
      · intro j h
        rw [List.find?_cons_of_neg _ (by simp [hpn])] at h
        obtain ⟨hjn, hpj, hmax⟩ := ih.1 j h
        refine ⟨by omega, hpj, fun i hi hpi => ?_⟩
        rcases Nat.lt_succ_iff_lt_or_eq.mp hi with h' | h'
        · exact hmax i h' hpi
        · subst h'; rw [hpn] at hpi; simp at hpi
      · intro h i hi
        rw [List.find?_cons_of_neg _ (by simp [hpn])] at h
        rcases Nat.lt_succ_iff_lt_or_eq.mp hi with h' | h'
        · exact ih.2 h i h'
        · subst h'; simp [hpn]

/-- The anchor scan: in a non-empty series, `anchorIdx` is in range; it is the
greatest index with timestamp at or before the target when one exists, and
`0` when the series lies entirely after the target. -/
theorem anchorIdx_spec (days : List App.PricePoint) (t : ℤ) (hne : days ≠ []) :
    App.anchorIdx days t < days.length ∧
    ((∃ i, i < days.length ∧ (days.getD i default).ts ≤ t) →
      (days.getD (App.anchorIdx days t) default).ts ≤ t ∧
      ∀ i, i < days.length → (days.getD i default).ts ≤ t →
        i ≤ App.anchorIdx days t) ∧
    ((∀ i, i < days.length → t < (days.getD i default).ts) →
      App.anchorIdx days t = 0) := by
  have hlen : 0 < days.length := List.length_pos.mpr hne
  have h := find_revRange days.length fun i => decide ((days.getD i default).ts ≤ t)
  cases hf : (List.range days.length).reverse.find?
      (fun i => decide ((days.getD i default).ts ≤ t)) with
  | some j =>
    obtain ⟨hjn, hpj, hmax⟩ := h.1 j hf
    have ha : App.anchorIdx days t = j := by rw [App.anchorIdx, hf]; rfl
    rw [ha]
    have hjt : (days.getD j default).ts ≤ t := by simpa using hpj
    refine ⟨hjn, fun _ => ⟨hjt, fun i hi hti => hmax i hi (by simpa using hti)⟩, ?_⟩
    intro hall
    have := hall j hjn
    omega
  | none =>
    have ha : App.anchorIdx days t = 0 := by rw [App.anchorIdx, hf]; rfl
    rw [ha]
    refine ⟨hlen, ?_, fun _ => rfl⟩
    rintro ⟨i, hi, hti⟩
    exact absurd (by simpa using hti) (h.2 hf i hi)

/-- If the built series is non-empty, neither raw array was empty. -/
theorem buildTradingDays_ne_nil_arrays (timestamps : List ℤ)
    (closes : List (Option ℚ))
    (hne : App.buildTradingDays timestamps closes ≠ []) :
    ¬ (timestamps = [] ∨ closes = []) := by
  rintro (rfl | rfl)
  · apply hne
    rw [App.buildTradingDays]
    simp
  · apply hne
    rw [App.buildTradingDays]
    have hmap : ((List.range timestamps.length).filterMap fun i =>
        (List.getD ([] : List (Option ℚ)) i none).map fun c =>
          App.PricePoint.mk (timestamps.getD i 0) c) = [] := by
      simp
    rw [hmap, List.mergeSort_nil]

/-- C1: on a chart response whose filtered series is non-empty (and a valid
ticker), the resolver's anchor is the last observation of the
timestamp-ascending series whose timestamp is ≤ the target, or the first
observation when the series lies entirely after the target; the reported
price is the anchor's close rounded to 1 decimal place (`Math.round(x*10)/10`)
and `actualDate` is the calendar date of the anchor's timestamp. -/
theorem fetchClosingPrice_anchor (tzOffsetMin : ℤ) (ticker : Option String)
    (targetTs : ℤ) (timestamps : List ℤ) (closes : List (Option ℚ))
    (htick : ¬ (ticker = none ∨ ticker = some ""))
    (hne : App.buildTradingDays timestamps closes ≠ []) :
    App.anchorIdx (App.buildTradingDays timestamps closes) targetTs <
      (App.buildTradingDays timestamps closes).length ∧
    (App.fetchClosingPrice tzOffsetMin ticker targetTs
        (.chart timestamps closes)).price =
      some ((App.jsRound (((App.buildTradingDays timestamps closes).getD
        (App.anchorIdx (App.buildTradingDays timestamps closes) targetTs)
          default).close * 10) : ℚ) / 10) ∧
    (App.fetchClosingPrice tzOffsetMin ticker targetTs
        (.chart timestamps closes)).actualDate =
      some (App.formatEpochDate tzOffsetMin
        (((App.buildTradingDays timestamps closes).getD
          (App.anchorIdx (App.buildTradingDays timestamps closes) targetTs)
            default).ts)) ∧
    ((∃ i, i < (App.buildTradingDays timestamps closes).length ∧
        ((App.buildTradingDays timestamps closes).getD i default).ts ≤ targetTs) →
      ((App.buildTradingDays timestamps closes).getD
        (App.anchorIdx (App.buildTradingDays timestamps closes) targetTs)
          default).ts ≤ targetTs ∧
      ∀ i, i < (App.buildTradingDays timestamps closes).length →
        ((App.buildTradingDays timestamps closes).getD i default).ts ≤ targetTs →
        i ≤ App.anchorIdx (App.buildTradingDays timestamps closes) targetTs) ∧
    ((∀ i, i < (App.buildTradingDays timestamps closes).length →
        targetTs < ((App.buildTradingDays timestamps closes).getD i default).ts) →
      App.anchorIdx (App.buildTradingDays timestamps closes) targetTs = 0) := by
  have hts := buildTradingDays_ne_nil_arrays timestamps closes hne
  have hspec := anchorIdx_spec (App.buildTradingDays timestamps closes) targetTs hne
  refine ⟨hspec.1, ?_, ?_, hspec.2.1, hspec.2.2⟩
  · simp [App.fetchClosingPrice, htick, hts, hne]
  · simp [App.fetchClosingPrice, htick, hts, hne]

/-- Witness for C1 on the spec's example series (target `250`, anchored at
`t = 200`): the reported price is the anchor's close rounded to 1 decimal. -/
theorem fetchClosingPrice_anchor_witness :
    (App.fetchClosingPrice 0 (some "7203.T") 250
        (.chart [100, 200, 300] [some 10, some 20, some 30])).price =
      some ((App.jsRound
        (((App.buildTradingDays [100, 200, 300] [some 10, some 20, some 30]).getD
          (App.anchorIdx
            (App.buildTradingDays [100, 200, 300] [some 10, some 20, some 30]) 250)
            default).close * 10) : ℚ) / 10) :=
  (fetchClosingPrice_anchor 0 (some "7203.T") 250 [100, 200, 300]
    [some 10, some 20, some 30] (by simp)
    (by
      rw [App.buildTradingDays]
      rw [show (List.range ([100, 200, 300] : List ℤ).length).filterMap
          (fun i => (([some 10, some 20, some 30] : List (Option ℚ)).getD i none).map
            fun c => App.PricePoint.mk (([100, 200, 300] : List ℤ).getD i 0) c) =
          [{ ts := 100, close := 10 }, { ts := 200, close := 20 },
            { ts := 300, close := 30 }] from by decide]
      rw [List.mergeSort_of_sorted (by decide)]
      simp)).2.1

/-- C4: `change1d` is computed against the element at the index immediately
preceding the anchor in the filtered, sorted series (a trading-day lookback,
not a calendar one), and is `null` when the anchor is the first element. -/
theorem fetchClosingPrice_change1d (tzOffsetMin : ℤ) (ticker : Option String)
    (targetTs : ℤ) (timestamps : List ℤ) (closes : List (Option ℚ))
    (htick : ¬ (ticker = none ∨ ticker = some ""))
    (hne : App.buildTradingDays timestamps closes ≠ []) :
    (App.fetchClosingPrice tzOffsetMin ticker targetTs
        (.chart timestamps closes)).change1d =
      App.calcChangeRate
        (some (((App.buildTradingDays timestamps closes).getD
          (App.anchorIdx (App.buildTradingDays timestamps closes) targetTs)
            default).close))
        (if 1 ≤ App.anchorIdx (App.buildTradingDays timestamps closes) targetTs
          then some (((App.buildTradingDays timestamps closes).getD
            (App.anchorIdx (App.buildTradingDays timestamps closes) targetTs - 1)
              default).close)
          else none) ∧
    (App.anchorIdx (App.buildTradingDays timestamps closes) targetTs = 0 →
      (App.fetchClosingPrice tzOffsetMin ticker targetTs
        (.chart timestamps closes)).change1d = none) := by
  have hts := buildTradingDays_ne_nil_arrays timestamps closes hne
  constructor
  · simp [App.fetchClosingPrice, htick, hts, hne]
  · intro h0
    simp [App.fetchClosingPrice, htick, hts, hne, h0, App.calcChangeRate]

/-- Witness for C4: with the series starting after the target (target `50`),
the anchor is the first element and `change1d` is `null`. -/
theorem fetchClosingPrice_change1d_witness :
    (App.fetchClosingPrice 0 (some "7203.T") 50
        (.chart [100, 200, 300] [some 10, some 20, some 30])).change1d = none := by
  have hbd : App.buildTradingDays [100, 200, 300] [some 10, some 20, some 30] =
      [{ ts := 100, close := 10 }, { ts := 200, close := 20 },
        { ts := 300, close := 30 }] := by
    rw [App.buildTradingDays]
    rw [show (List.range ([100, 200, 300] : List ℤ).length).filterMap
        (fun i => (([some 10, some 20, some 30] : List (Option ℚ)).getD i none).map
          fun c => App.PricePoint.mk (([100, 200, 300] : List ℤ).getD i 0) c) =
        [{ ts := 100, close := 10 }, { ts := 200, close := 20 },
          { ts := 300, close := 30 }] from by decide]
    exact List.mergeSort_of_sorted (by decide)
  refine (fetchClosingPrice_change1d 0 (some "7203.T") 50 [100, 200, 300]
    [some 10, some 20, some 30] (by simp) (by rw [hbd]; simp)).2 ?_
  rw [hbd]
  decide

/-- C5: for every current instant (and any constant host time-zone offset —
the offset cancels), `getTargetDate` renders, as `YYYYMMDD`, yesterday's
UTC+9 calendar date exactly when the JST time-of-day lies in the window
[09:00, 15:00) (minute-of-day in [540, 900)), and today's UTC+9 calendar date
otherwise; in particular at JST 10:30 it returns the previous day, and at
16:00 or 08:59 the current day (concrete instants below sit on JST civil day
20000 at 10:30, 16:00 and 08:59 respectively). -/
theorem getTargetDate_spec :
    (∀ tzOffsetMin nowMs : ℤ,
      App.getTargetDate tzOffsetMin nowMs =
        App.fmtYYYYMMDD
          (if 540 ≤ App.jstMinuteOfDay nowMs ∧ App.jstMinuteOfDay nowMs < 900
            then App.jstDay nowMs - 1 else App.jstDay nowMs)) ∧
    App.jstMinuteOfDay 1728005400000 = 630 ∧
    App.getTargetDate 0 1728005400000 =
      App.fmtYYYYMMDD (App.jstDay 1728005400000 - 1) ∧
    App.jstMinuteOfDay 1728025200000 = 960 ∧
    App.getTargetDate 0 1728025200000 =
      App.fmtYYYYMMDD (App.jstDay 1728025200000) ∧
    App.jstMinuteOfDay 1727999940000 = 539 ∧
    App.getTargetDate 0 1727999940000 =
      App.fmtYYYYMMDD (App.jstDay 1727999940000) := by
  have hmain : ∀ tzOffsetMin nowMs : ℤ,
      App.getTargetDate tzOffsetMin nowMs =
        App.fmtYYYYMMDD
          (if 540 ≤ App.jstMinuteOfDay nowMs ∧ App.jstMinuteOfDay nowMs < 900
            then App.jstDay nowMs - 1 else App.jstDay nowMs) := by
    intro tzOffsetMin nowMs
    simp only [App.getTargetDate]
    congr 1
    rw [App.jstMinuteOfDay, App.jstDay]
    split_ifs <;> omega
  refine ⟨hmain, by decide, ?_, by decide, ?_, by decide, ?_⟩
  · rw [hmain, if_pos (by decide)]
  · rw [hmain, if_neg (by decide)]
  · rw [hmain, if_neg (by decide)]

/-- `progressOfBatch` produces one entry per stock. -/
theorem progressOfBatch_length (total : ℕ) :
    ∀ (l : List App.Stock) (base : ℕ),
      (App.progressOfBatch total base l).length = l.length
  | [], _ => rfl
  | _ :: tail, base => by
    simp [App.progressOfBatch, progressOfBatch_length total tail (base + 1)]

/-- `progressOfBatch` over an appended list splits with a shifted base. -/
theorem progressOfBatch_append (total : ℕ) :
    ∀ (l1 l2 : List App.Stock) (base : ℕ),
      App.progressOfBatch total base (l1 ++ l2) =
        App.progressOfBatch total base l1 ++
          App.progressOfBatch total (base + l1.length) l2
  | [], l2, base => by simp [App.progressOfBatch]
  | a :: tail, l2, base => by
    simp only [List.cons_append, App.progressOfBatch, List.length_cons,
      List.append_eq]
    rw [progressOfBatch_append total tail l2 (base + 1)]
    simp only [List.cons.injEq, true_and]
    congr 2
    omega

/-- Closed form of settling one batch with `foldl`. -/
theorem settleStock_foldl (resolver : App.Stock → App.PriceResult) (total : ℕ) :
    ∀ (batch : List App.Stock) (st : App.RunState),
      batch.foldl (App.settleStock resolver total) st =
        { closingPrices := batch.foldl
            (fun m s' => App.setKey m s'.rawCode (resolver s')) st.closingPrices
          errorMessages := st.errorMessages ++
            (batch.filter fun s' => App.optTruthy (resolver s').error).map
              (fun s' => App.mkErrEntry s' (resolver s'))
          completed := st.completed + batch.length
          progressCalls := st.progressCalls ++
            App.progressOfBatch total st.completed batch
          pauses := st.pauses }
  | [], st => by simp [App.progressOfBatch]
  | a :: tail, st => by
    rw [List.foldl_cons, settleStock_foldl resolver total tail]
    by_cases htr : App.optTruthy (resolver a).error = true
    · simp only [App.settleStock, htr, if_true, App.progressOfBatch,
        List.foldl_cons, List.filter_cons, List.length_cons,
        App.RunState.mk.injEq]
      refine ⟨trivial, ?_, by omega, ?_, trivial⟩ <;> simp [List.append_assoc]
    · simp only [App.settleStock, htr, if_false, Bool.false_eq_true,
        App.progressOfBatch, List.foldl_cons, List.filter_cons,
        List.length_cons, App.RunState.mk.injEq]
      refine ⟨trivial, ?_, by omega, ?_, trivial⟩ <;> simp [List.append_assoc]

/-- Closed form of the batch loop: the loop settles the remaining stocks in
order (batching affects only the pause count). -/
theorem runBatches_closed (resolver : App.Stock → App.PriceResult) (total : ℕ) :
    ∀ (n : ℕ) (rem : List App.Stock) (i : ℕ) (st : App.RunState),
      rem.length ≤ n →
      App.runBatches resolver total i rem st =
        { closingPrices := rem.foldl
            (fun m s' => App.setKey m s'.rawCode (resolver s')) st.closingPrices
          errorMessages := st.errorMessages ++
            (rem.filter fun s' => App.optTruthy (resolver s').error).map
              (fun s' => App.mkErrEntry s' (resolver s'))
          completed := st.completed + rem.length
          progressCalls := st.progressCalls ++
            App.progressOfBatch total st.completed rem
          pauses := st.pauses + App.pausesFor total i rem }
  | 0, rem, i, st, h => by
    have hr : rem = [] := List.length_eq_zero.mp (by omega)
    subst hr
    simp [App.runBatches, App.pausesFor, App.progressOfBatch]
  | n + 1, rem, i, st, h => by
    cases rem with
    | nil => simp [App.runBatches, App.pausesFor, App.progressOfBatch]
    | cons a tail =>
      rw [App.runBatches]
      rw [settleStock_foldl]
      have hdrop : ((a :: tail).drop 5).length ≤ n := by
        simp only [List.length_drop, List.length_cons] at h ⊢
        omega
      by_cases hp : i + 5 < total
      · rw [if_pos hp]
        rw [runBatches_closed resolver total n ((a :: tail).drop 5) (i + 5) _ hdrop]
        rw [App.pausesFor, if_pos hp]
        simp only [App.RunState.mk.injEq]
        refine ⟨?_, ?_, ?_, ?_, by omega⟩
        · rw [← List.foldl_append, List.take_append_drop]
        · rw [List.append_assoc, ← List.map_append, ← List.filter_append,
            List.take_append_drop]
        · simp only [List.length_take, List.length_drop, List.length_cons]
          omega
        · rw [List.append_assoc, ← progressOfBatch_append, List.take_append_drop]
      · rw [if_neg hp]
        rw [runBatches_closed resolver total n ((a :: tail).drop 5) (i + 5) _ hdrop]
        rw [App.pausesFor, if_neg hp]
        simp only [App.RunState.mk.injEq]
        refine ⟨?_, ?_, ?_, ?_, by omega⟩
        · rw [← List.foldl_append, List.take_append_drop]
        · rw [List.append_assoc, ← List.map_append, ← List.filter_append,
            List.take_append_drop]
        · simp only [List.length_take, List.length_drop, List.length_cons]
          omega
        · rw [List.append_assoc, ← progressOfBatch_append, List.take_append_drop]

/-- With the loop invariant `total = i + rem.length`, the pause count is
(number of batches) − 1, i.e. `⌈rem.length/5⌉ - 1`. -/
theorem pausesFor_inv :
    ∀ (n : ℕ) (rem : List App.Stock) (i : ℕ), rem.length ≤ n →
      App.pausesFor (i + rem.length) i rem = (rem.length + 4) / 5 - 1
  | 0, rem, i, h => by
    have hr : rem = [] := List.length_eq_zero.mp (by omega)
    subst hr
    simp [App.pausesFor]
  | n + 1, rem, i, h => by
    cases rem with
    | nil => simp [App.pausesFor]
    | cons a tail =>
      rw [App.pausesFor]
      by_cases hlen : (a :: tail).length ≤ 5
      · have hdrop : (a :: tail).drop 5 = [] := by
          apply List.eq_nil_of_length_eq_zero
          simp only [List.length_drop]
          omega
        rw [hdrop]
        have hnp : ¬ (i + 5 < i + (a :: tail).length) := by
          simp only [List.length_cons] at hlen ⊢
          omega
        rw [if_neg hnp, App.pausesFor]
        simp only [List.length_cons] at hlen ⊢
        omega
      · have hlc : (a :: tail).length = tail.length + 1 := rfl
        have hdl : ((a :: tail).drop 5).length = (a :: tail).length - 5 := by
          simp
        have hp : i + 5 < i + (a :: tail).length := by omega
        rw [if_pos hp]
        have hih := pausesFor_inv n ((a :: tail).drop 5) (i + 5)
          (by simp only [List.length_drop] at *; omega)
        rw [show i + (a :: tail).length = i + 5 + ((a :: tail).drop 5).length
          from by simp only [List.length_drop]; omega] at *
        rw [hih]
        simp only [List.length_drop] at *
        omega

/-- C8 (amended): the orchestrator settles the instruments in input order in
consecutive batches of 5 (the closed form shows one settlement per
instrument, in order), pauses exactly `⌈N/5⌉ − 1` times (between consecutive
batches, never after the final one), and invokes the progress callback
exactly `N + 2` times: once initially at count 0, once per settling
instrument with the incremented count, and once at completion with
`(N, N, 完了！)`. -/
theorem fetchAllPrices_batching (targetDateStr : String)
    (resolver : App.Stock → App.PriceResult) (stocks : List App.Stock) :
    (App.fetchAllPrices targetDateStr resolver stocks).progressCalls =
      (0, stocks.length,
        "基準日: " ++ App.formatDateStr targetDateStr ++ " — 準備中...") ::
        (App.progressOfBatch stocks.length 0 stocks ++
          [(stocks.length, stocks.length, "完了！")]) ∧
    (App.fetchAllPrices targetDateStr resolver stocks).progressCalls.length =
      stocks.length + 2 ∧
    (App.fetchAllPrices targetDateStr resolver stocks).completed =
      stocks.length ∧
    (App.fetchAllPrices targetDateStr resolver stocks).pauses =
      (stocks.length + 4) / 5 - 1 := by
  have hpa := pausesFor_inv stocks.length stocks 0 le_rfl
  rw [Nat.zero_add] at hpa
  simp only [App.fetchAllPrices]
  rw [runBatches_closed resolver stocks.length stocks.length stocks 0 _ le_rfl]
  refine ⟨?_, ?_, ?_, ?_⟩
  · simp
  · simp [progressOfBatch_length]
  · simp
  · simp [hpa]

/-- C8 (counterexample): over 12 instruments the progress callback is invoked
14 times — initial call, 12 per-item calls, and a final completion call — not
the claimed 13. -/
theorem fetchAllPrices_progress_counterexample :
    (App.fetchAllPrices "20240101" (fun _ => App.nullResult)
        ((List.range 12).map fun k =>
          { ticker := some "1301.T", rawCode := toString k,
            name := "株" })).progressCalls.length = 14 ∧
    (14 : ℕ) ≠ 12 + 1 := by
  constructor
  · simp only [App.fetchAllPrices, List.length_map, List.length_range]
    rw [runBatches_closed (fun _ => App.nullResult) 12 12 _ 0 _ (by simp)]
    simp [progressOfBatch_length]
  · decide

/-- `setKey` on a fresh key appends. -/
theorem setKey_fresh (m : List (String × App.PriceResult)) (k : String)
    (v : App.PriceResult) (h : (m.any fun p => p.1 = k) = false) :
    App.setKey m k v = m ++ [(k, v)] := by
  rw [App.setKey, if_neg (by simp [h])]

/-- Folding `setKey` over stocks with pairwise-distinct codes, all fresh for
the initial map, appends one entry per stock in order. -/
theorem setKey_foldl_fresh (resolver : App.Stock → App.PriceResult) :
    ∀ (l : List App.Stock) (m : List (String × App.PriceResult)),
      (l.map fun st => st.rawCode).Nodup →
      (∀ st ∈ l, (m.any fun p => p.1 = st.rawCode) = false) →
      l.foldl (fun m' s' => App.setKey m' s'.rawCode (resolver s')) m =
        m ++ l.map fun s' => (s'.rawCode, resolver s')
  | [], m, _, _ => by simp
  | a :: tail, m, hnd, hfresh => by
    rw [List.foldl_cons,
      setKey_fresh m a.rawCode (resolver a) (hfresh a (by simp))]
    have hnd' : (tail.map fun st => st.rawCode).Nodup :=
      (List.nodup_cons.mp (by simpa using hnd)).2
    have hanotin : a.rawCode ∉ tail.map fun st => st.rawCode :=
      (List.nodup_cons.mp (by simpa using hnd)).1
    rw [setKey_foldl_fresh resolver tail (m ++ [(a.rawCode, resolver a)]) hnd' ?_]
    · simp
    · intro st hst
      have h1 : (m.any fun p => p.1 = st.rawCode) = false :=
        hfresh st (List.mem_cons_of_mem a hst)
      have h2 : a.rawCode ≠ st.rawCode := fun he =>
        hanotin (he ▸ List.mem_map_of_mem _ hst)
      simp [List.any_append, h1, h2]

/-- Looking up a stock's code in the association list built from a
nodup-coded stock list yields that stock's value. -/
theorem lookup_map_self (resolver : App.Stock → App.PriceResult) :
    ∀ (l : List App.Stock), (l.map fun st => st.rawCode).Nodup →
      ∀ st ∈ l,
        (l.map fun s' => (s'.rawCode, resolver s')).lookup st.rawCode =
          some (resolver st)
  | [], _, st, hmem => by simp at hmem
  | a :: tail, hnd, st, hmem => by
    rcases List.mem_cons.mp hmem with rfl | hst
    · simp [List.lookup]
    · have hanotin : a.rawCode ∉ tail.map fun s' => s'.rawCode :=
        (List.nodup_cons.mp (by simpa using hnd)).1
      have hne : (st.rawCode == a.rawCode) = false := by
        simp only [beq_eq_false_iff_ne, ne_eq]
        intro he
        exact hanotin (he ▸ List.mem_map_of_mem _ hst)
      simp only [List.map_cons, List.lookup, hne]
      exact lookup_map_self resolver tail
        ((List.nodup_cons.mp (by simpa using hnd)).2) st hst

/-- No entry derived from stocks whose codes all differ from `c` survives a
filter on code `c`. -/
theorem errFilter_nil (resolver : App.Stock → App.PriceResult) (c : String) :
    ∀ (l : List App.Stock), (∀ s' ∈ l, s'.rawCode ≠ c) →
      ((l.filter fun s' => App.optTruthy (resolver s').error).map
        fun s' => App.mkErrEntry s' (resolver s')).filter
          (fun e => e.code = c) = []
  | [], _ => rfl
  | a :: tail, hall => by
    have ha : a.rawCode ≠ c := hall a (by simp)
    have htail := errFilter_nil resolver c tail
      fun s' hs' => hall s' (List.mem_cons_of_mem a hs')
    by_cases htr : App.optTruthy (resolver a).error = true
    · rw [List.filter_cons, if_pos htr, List.map_cons, List.filter_cons,
        if_neg (by simp [App.mkErrEntry, ha])]
      exact htail
    · rw [List.filter_cons, if_neg htr]
      exact htail

/-- The error entries carrying a given stock's code are exactly that stock's
own entry (when its result is truthy-failing), under pairwise-distinct
codes. -/
theorem errFilter_self (resolver : App.Stock → App.PriceResult) :
    ∀ (l : List App.Stock), (l.map fun st => st.rawCode).Nodup →
      ∀ st ∈ l,
        ((l.filter fun s' => App.optTruthy (resolver s').error).map
          fun s' => App.mkErrEntry s' (resolver s')).filter
            (fun e => e.code = st.rawCode) =
          if App.optTruthy (resolver st).error then
            [App.mkErrEntry st (resolver st)] else []
  | [], _, st, hmem => by simp at hmem
  | a :: tail, hnd, st, hmem => by
    have hanotin : a.rawCode ∉ tail.map fun s' => s'.rawCode :=
      (List.nodup_cons.mp (by simpa using hnd)).1
    have hnd' : (tail.map fun st => st.rawCode).Nodup :=
      (List.nodup_cons.mp (by simpa using hnd)).2
    rcases List.mem_cons.mp hmem with rfl | hst
    · have htail := errFilter_nil resolver st.rawCode tail
        fun s' hs' he => hanotin (he ▸ List.mem_map_of_mem _ hs')
      by_cases htr : App.optTruthy (resolver st).error = true
      · rw [List.filter_cons, if_pos htr, List.map_cons, List.filter_cons,
          if_pos (by simp [App.mkErrEntry]), htail, if_pos htr]
      · rw [List.filter_cons, if_neg htr, htail, if_neg htr]
    · have hne : a.rawCode ≠ st.rawCode := fun he =>
        hanotin (he ▸ List.mem_map_of_mem _ hst)
      have htail := errFilter_self resolver tail hnd' st hst
      by_cases htr : App.optTruthy (resolver a).error = true
      · rw [List.filter_cons, if_pos htr, List.map_cons, List.filter_cons,
          if_neg (by simp [App.mkErrEntry, hne])]
        exact htail
      · rw [List.filter_cons, if_neg htr]
        exact htail

/-- C9: under the upstream dedup guarantee (pairwise-distinct raw codes) and
non-empty error messages, a run always completes with exactly one
`PriceResult` per instrument keyed by its raw identifier (the results map is
precisely one entry per stock, in input order); an instrument whose resolver
fails (e.g. `HTTP 500`) does not prevent any other instrument's result; and
each failing instrument contributes its `{code, name, ticker, error}` entry
to the error list exactly once — never zero times or twice. -/
theorem fetchAllPrices_isolation (targetDateStr : String)
    (resolver : App.Stock → App.PriceResult) (stocks : List App.Stock)
    (hnodup : (stocks.map fun st => st.rawCode).Nodup)
    (hmsg : ∀ st ∈ stocks, (resolver st).error ≠ some "") :
    (App.fetchAllPrices targetDateStr resolver stocks).closingPrices =
      (stocks.map fun st => (st.rawCode, resolver st)) ∧
    ∀ st ∈ stocks,
      ((App.fetchAllPrices targetDateStr resolver stocks).closingPrices.lookup
        st.rawCode = some (resolver st)) ∧
      ((App.fetchAllPrices targetDateStr resolver stocks).errorMessages.filter
        fun e => e.code = st.rawCode) =
        (if (resolver st).error = none then []
          else [App.mkErrEntry st (resolver st)]) := by
  have hcp : (App.fetchAllPrices targetDateStr resolver stocks).closingPrices =
      (stocks.map fun st => (st.rawCode, resolver st)) := by
    simp only [App.fetchAllPrices]
    rw [runBatches_closed resolver stocks.length stocks.length stocks 0 _ le_rfl]
    have h := setKey_foldl_fresh resolver stocks [] hnodup (by simp)
    simpa using h
  have herr : (App.fetchAllPrices targetDateStr resolver stocks).errorMessages =
      (stocks.filter fun s' => App.optTruthy (resolver s').error).map
        fun s' => App.mkErrEntry s' (resolver s') := by
    simp only [App.fetchAllPrices]
    rw [runBatches_closed resolver stocks.length stocks.length stocks 0 _ le_rfl]
    simp
  refine ⟨hcp, fun st hst => ⟨?_, ?_⟩⟩
  · rw [hcp]
    exact lookup_map_self resolver stocks hnodup st hst
  · rw [herr, errFilter_self resolver stocks hnodup st hst]
    have htruthy : App.optTruthy (resolver st).error = true ↔
        ¬ (resolver st).error = none := by
      cases he : (resolver st).error with
      | none => simp [App.optTruthy]
      | some s =>
        have : s ≠ "" := by
          intro hs
          exact hmsg st hst (by rw [he, hs])
        simp [App.optTruthy, this]
    by_cases hn : (resolver st).error = none
    · rw [if_neg (by rw [htruthy]; simp [hn]), if_pos hn]
    · rw [if_pos (htruthy.mpr hn), if_neg hn]

/-- Witness for C9: two instruments, the first failing with `HTTP 500`. The
second still gets its result, and the failing one appears exactly once in
the error list. -/
theorem fetchAllPrices_isolation_witness :
    ((App.fetchAllPrices "20240101"
        (fun st => if st.rawCode = "1301"
          then { App.nullResult with error := some "HTTP 500" }
          else { App.nullResult with price := some 100 })
        [{ ticker := some "1301.T", rawCode := "1301", name := "A" },
         { ticker := some "1302.T", rawCode := "1302", name := "B" }]).closingPrices.lookup
      "1302" = some { App.nullResult with price := some (100 : ℚ) }) ∧
    ((App.fetchAllPrices "20240101"
        (fun st => if st.rawCode = "1301"
          then { App.nullResult with error := some "HTTP 500" }
          else { App.nullResult with price := some 100 })
        [{ ticker := some "1301.T", rawCode := "1301", name := "A" },
         { ticker := some "1302.T", rawCode := "1302", name := "B" }]).errorMessages.filter
      fun e => e.code = "1301") =
      [App.mkErrEntry { ticker := some "1301.T", rawCode := "1301", name := "A" }
        { App.nullResult with error := some "HTTP 500" }] :=
  ⟨((fetchAllPrices_isolation "20240101"
      (fun st => if st.rawCode = "1301"
        then { App.nullResult with error := some "HTTP 500" }
        else { App.nullResult with price := some 100 })
      [{ ticker := some "1301.T", rawCode := "1301", name := "A" },
       { ticker := some "1302.T", rawCode := "1302", name := "B" }]
      (by decide) (by decide)).2
      { ticker := some "1302.T", rawCode := "1302", name := "B" } (by decide)).1,
   ((fetchAllPrices_isolation "20240101"
      (fun st => if st.rawCode = "1301"
        then { App.nullResult with error := some "HTTP 500" }
        else { App.nullResult with price := some 100 })
      [{ ticker := some "1301.T", rawCode := "1301", name := "A" },
       { ticker := some "1302.T", rawCode := "1302", name := "B" }]
      (by decide) (by decide)).2
      { ticker := some "1301.T", rawCode := "1301", name := "A" } (by decide)).2⟩

/-- `addStockRow` only ever appends. -/
theorem addStockRow_prefix (acc : List App.Stock) (row : List String) :
    ∃ ext, App.addStockRow acc row = acc ++ ext := by
  rw [App.addStockRow]
  cases App.rowCode row with
  | none => exact ⟨[], by simp⟩
  | some c =>
    dsimp only
    by_cases ha : (acc.any fun st => st.rawCode = c) = true
    · rw [if_pos ha]; exact ⟨[], by simp⟩
    · rw [if_neg ha]
      cases App.toTicker c with
      | none => exact ⟨[], by simp⟩
      | some tk => exact ⟨[_], rfl⟩

/-- The loop only ever appends. -/
theorem foldl_addStockRow_prefix :
    ∀ (rows : List (List String)) (acc : List App.Stock),
      ∃ ext, rows.foldl App.addStockRow acc = acc ++ ext
  | [], acc => ⟨[], by simp⟩
  | row :: rest, acc => by
    obtain ⟨e1, h1⟩ := addStockRow_prefix acc row
    obtain ⟨e2, h2⟩ := foldl_addStockRow_prefix rest (App.addStockRow acc row)
    exact ⟨e1 ++ e2, by rw [List.foldl_cons, h2, h1, List.append_assoc]⟩

/-- `addStockRow` preserves pairwise-distinct codes. -/
theorem addStockRow_nodup (acc : List App.Stock) (row : List String)
    (h : (acc.map fun st => st.rawCode).Nodup) :
    ((App.addStockRow acc row).map fun st => st.rawCode).Nodup := by
  rw [App.addStockRow]
  cases App.rowCode row with
  | none => exact h
  | some c =>
    dsimp only
    by_cases ha : (acc.any fun st => st.rawCode = c) = true
    · rw [if_pos ha]; exact h
    · rw [if_neg ha]
      cases App.toTicker c with
      | none => exact h
      | some tk =>
        dsimp only
        have hc : c ∉ acc.map fun st => st.rawCode := by
          intro hc
          obtain ⟨st, hst, he⟩ := List.mem_map.mp hc
          exact ha (List.any_eq_true.mpr ⟨st, hst, by simp [he]⟩)
        simp only [List.map_append, List.map_cons, List.map_nil]
        rw [List.nodup_append]
        refine ⟨h, List.nodup_singleton c, fun a ha hmem => ?_⟩
        rw [List.mem_singleton] at hmem
        exact hc (hmem ▸ ha)

/-- Unfolding a successful `toTicker`: the trimmed code has at least 4
characters, its first 4 are ASCII alphanumeric, and the ticker is those 4
characters plus `".T"`. -/
theorem toTicker_eq_some (c tk : String) (h : App.toTicker c = some tk) :
    4 ≤ (App.jsTrim c).length ∧ ((App.jsTrim c).toList.take 4).all Char.isAlphanum ∧
      tk = String.mk ((App.jsTrim c).toList.take 4) ++ ".T" := by
  simp only [App.toTicker] at h
  by_cases h1 : (App.jsTrim c).length < 4
  · rw [if_pos h1] at h; simp at h
  · rw [if_neg h1] at h
    by_cases h2 : ((App.jsTrim c).toList.take 4).all Char.isAlphanum = true
    · rw [if_pos h2] at h
      refine ⟨by omega, h2, ?_⟩
      injection h with h
      exact h.symm
    · rw [if_neg h2] at h; simp at h

/-- Main invariant of the `getUniqueStocks` loop: codes stay
pairwise-distinct, and every produced stock either was already accumulated or
stems from the first row of the remaining input carrying its (fresh) code,
with a ticker built by `toTicker`. -/
theorem addStockRow_go :
    ∀ (rows : List (List String)) (acc : List App.Stock),
      ((acc.map fun st => st.rawCode).Nodup) →
      (((rows.foldl App.addStockRow acc).map fun st => st.rawCode).Nodup ∧
       ∀ st ∈ rows.foldl App.addStockRow acc,
         st ∈ acc ∨
         ((∃ tk, App.toTicker st.rawCode = some tk ∧ st.ticker = some tk) ∧
          (∀ st' ∈ acc, st'.rawCode ≠ st.rawCode) ∧
          ∃ pre row post, rows = pre ++ row :: post ∧
            App.rowCode row = some st.rawCode ∧
            st.name = (App.jsTrim (row.getD 2 "")) ∧
            ∀ r ∈ pre, App.rowCode r ≠ some st.rawCode))
  | [], acc, h => ⟨h, fun st hst => Or.inl hst⟩
  | row :: rest, acc, h => by
    have hnd' := addStockRow_nodup acc row h
    obtain ⟨ihnd, ihmem⟩ := addStockRow_go rest (App.addStockRow acc row) hnd'
    obtain ⟨e1, he1⟩ := addStockRow_prefix acc row
    refine ⟨by rw [List.foldl_cons]; exact ihnd, ?_⟩
    intro st hst
    rw [List.foldl_cons] at hst
    rcases ihmem st hst with hin | ⟨htk, hfresh, pre', row', post', hrows, hrc, hname, hpre⟩
    · -- st was produced by (or predates) this row's step
      rw [App.addStockRow] at hin
      cases hrcrow : App.rowCode row with
      | none => rw [hrcrow] at hin; exact Or.inl hin
      | some c =>
        rw [hrcrow] at hin
        dsimp only at hin
        by_cases ha : (acc.any fun st' => st'.rawCode = c) = true
        · rw [if_pos ha] at hin; exact Or.inl hin
        · rw [if_neg ha] at hin
          cases htt : App.toTicker c with
          | none => rw [htt] at hin; exact Or.inl hin
          | some tk =>
            rw [htt] at hin
            dsimp only at hin
            rcases List.mem_append.mp hin with hin | hin
            · exact Or.inl hin
            · rw [List.mem_singleton] at hin
              subst hin
              refine Or.inr ⟨⟨tk, htt, rfl⟩, ?_, [], row, rest, rfl, hrcrow, rfl, ?_⟩
              · intro st' hst' he
                exact ha (List.any_eq_true.mpr ⟨st', hst', by simp [he]⟩)
              · intro r hr; simp at hr
    · -- st stems from `rest`; lift the provenance across this row
      have hfresh0 : ∀ st' ∈ acc, st'.rawCode ≠ st.rawCode := fun st' hst' =>
        hfresh st' (by rw [he1]; exact List.mem_append_left _ hst')
      refine Or.inr ⟨htk, hfresh0, row :: pre', row', post',
        by rw [hrows]; simp, hrc, hname, ?_⟩
      intro r hr
      rcases List.mem_cons.mp hr with rfl | hr'
      · -- this row's code (if any) cannot be st's code
        cases hrcrow : App.rowCode r with
        | none => simp
        | some c =>
          simp only [ne_eq, Option.some.injEq]
          intro hceq
          subst hceq
          by_cases ha : (acc.any fun st' => st'.rawCode = st.rawCode) = true
          · obtain ⟨st', hst', he⟩ := List.any_eq_true.mp ha
            exact hfresh st'
              (by rw [he1]; exact List.mem_append_left _ hst')
              (by simpa using he)
          · cases htt : App.toTicker st.rawCode with
            | none =>
              obtain ⟨tk, htk', _⟩ := htk
              rw [htt] at htk'
              exact Option.noConfusion htk'
            | some tk =>
              have heq : App.addStockRow acc r =
                  acc ++ [{ ticker := some tk, rawCode := st.rawCode, name := App.jsTrim (r.getD 2 "") }] := by
                rw [App.addStockRow, hrcrow]
                dsimp only
                rw [if_neg ha, htt]
              have hnew : ({ ticker := some tk, rawCode := st.rawCode, name := App.jsTrim (r.getD 2 "") } : App.Stock) ∈
                  App.addStockRow acc r := by
                rw [heq]
                exact List.mem_append_right _ (by simp)
              exact hfresh _ hnew rfl
      · exact hpre r hr'

/-- Completeness of the `getUniqueStocks` loop: every row carrying a usable
code that `toTicker` accepts is represented in the output. -/
theorem addStockRow_complete :
    ∀ (rows : List (List String)) (acc : List App.Stock),
      ∀ r ∈ rows, ∀ c, App.rowCode r = some c → App.toTicker c ≠ none →
        ∃ st ∈ rows.foldl App.addStockRow acc, st.rawCode = c
  | [], _, r, hr, _, _, _ => by simp at hr
  | row :: rest, acc, r, hr, c, hrc, htt => by
    rw [List.foldl_cons]
    obtain ⟨ext, hext⟩ := foldl_addStockRow_prefix rest (App.addStockRow acc row)
    rcases List.mem_cons.mp hr with rfl | hr'
    · obtain ⟨e1, he1⟩ := addStockRow_prefix acc r
      by_cases ha : (acc.any fun st' => st'.rawCode = c) = true
      · obtain ⟨st', hst', he⟩ := List.any_eq_true.mp ha
        refine ⟨st', ?_, by simpa using he⟩
        rw [hext, he1]
        exact List.mem_append_left _ (List.mem_append_left _ hst')
      · cases htt2 : App.toTicker c with
        | none => exact absurd htt2 htt
        | some tk =>
          have heq : App.addStockRow acc r =
              acc ++ [{ ticker := some tk, rawCode := c, name := App.jsTrim (r.getD 2 "") }] := by
            rw [App.addStockRow, hrc]
            dsimp only
            rw [if_neg ha, htt2]
          refine ⟨{ ticker := some tk, rawCode := c, name := App.jsTrim (r.getD 2 "") }, ?_, rfl⟩
          rw [hext, heq]
          exact List.mem_append_left _ (List.mem_append_right _ (by simp))
    · exact addStockRow_complete rest (App.addStockRow acc row) r hr' c hrc htt

/-- C10: `getUniqueStocks` returns instruments with pairwise-distinct raw
codes; each kept instrument comes from the first row in which its code
appears (its display name taken from that row); an instrument is kept only if
its trimmed code has at least 4 characters, all of whose first 4 are ASCII
alphanumeric; its ticker is exactly those 4 characters followed by `".T"`;
and every row whose code passes these checks is represented. -/
theorem getUniqueStocks_spec (rows : List (List String)) :
    ((App.getUniqueStocks rows).map fun st => st.rawCode).Nodup ∧
    (∀ st ∈ App.getUniqueStocks rows,
      (4 ≤ (App.jsTrim st.rawCode).length ∧
        ((App.jsTrim st.rawCode).toList.take 4).all Char.isAlphanum ∧
        st.ticker =
          some (String.mk ((App.jsTrim st.rawCode).toList.take 4) ++ ".T")) ∧
      ∃ pre row post, rows = pre ++ row :: post ∧
        App.rowCode row = some st.rawCode ∧
        st.name = App.jsTrim (row.getD 2 "") ∧
        ∀ r ∈ pre, App.rowCode r ≠ some st.rawCode) ∧
    (∀ r ∈ rows, ∀ c, App.rowCode r = some c → App.toTicker c ≠ none →
      ∃ st ∈ App.getUniqueStocks rows, st.rawCode = c) := by
  obtain ⟨hnd, hmem⟩ := addStockRow_go rows [] (by simp)
  refine ⟨hnd, ?_, ?_⟩
  · intro st hst
    rcases hmem st hst with hin | ⟨⟨tk, htk, hticker⟩, _, prov⟩
    · simp at hin
    · obtain ⟨h4, hal, htk'⟩ := toTicker_eq_some st.rawCode tk htk
      exact ⟨⟨h4, hal, by rw [hticker, htk']⟩, prov⟩
  · intro r hr c hrc htt
    exact addStockRow_complete rows [] r hr c hrc htt

/-- Witness for C10: among three rows — a valid code `1301`, a duplicate of
it, and a too-short code `13` — the code `1301` is represented in the
output. -/
theorem getUniqueStocks_spec_witness :
    ∃ st ∈ App.getUniqueStocks
        [["20240101", "1301", "A"], ["20240101", "1301", "B"],
          ["20240101", "13", "C"]],
      st.rawCode = "1301" :=
  (getUniqueStocks_spec
    [["20240101", "1301", "A"], ["20240101", "1301", "B"],
      ["20240101", "13", "C"]]).2.2
    ["20240101", "1301", "A"] (by simp) "1301" (by decide) (by decide)
